import Mathlib

/-!
Shallow embedding of the snapshot ingestion and diff engine of
`src/lib/analytics.py` (class `Analytics`).

Modelling conventions:
* Calendar dates (ISO `YYYY-MM-DD` strings in the source, compared via
  `datetime.date` and via lexicographic filename sort, which agree for
  ISO dates) are modelled as `Nat` ordered chronologically.
* A raw snapshot file `<date>.csv` is one row per repository; a row is
  the `Row` structure below, with the four daily-bucketed columns
  already parsed from their textual dict form (`ast.literal_eval`)
  into association lists with the dict keys as dates.
* The filesystem is the datastore.  `FS.raw` models the `log/raw/`
  directory (an association list from snapshot date to its rows),
  `FS.series` models the per-repository metric files under
  `log/repos/<dir>/<metric>.csv` (a function from the (directory
  name, metric name) path to the file body, a list of (date, value)
  lines under the header), and `FS.reports` models the
  `log/analytics/<date>/<date>.json` report files.
* `sys.exit(1)` and uncaught I/O exceptions (a crashed process) are
  modelled by `Except.error ()`.
-/

/-- A date, ordered chronologically. -/
abbrev Date := Nat

/-- One row of a raw snapshot csv: the repository identifier, the six
non-daily metric columns, and the four daily-bucketed metric columns
(each parsed from its textual date-to-count mapping). -/
structure Row where
  repo : String
  stars : Int
  forks : Int
  clones_2weeks : Int
  clones_uniques_2weeks : Int
  views_2weeks : Int
  views_uniques_2weeks : Int
  clones_daily : List (Date × Int)
  clones_uniques_daily : List (Date × Int)
  views_daily : List (Date × Int)
  views_uniques_daily : List (Date × Int)
deriving DecidableEq, Repr

/-- The analytics dictionary written by `Analytics.log_analytics`.
In the json file, the stars and forks changes are pairs of the
repository name and the decimal string `str(cur - prev)`. -/
structure Report where
  began_tracking : List String
  ended_tracking : List String
  stars_change : List (String × String)
  forks_change : List (String × String)
deriving DecidableEq, Repr

/-- A series file path: the repository directory name paired with the
metric (column) name. -/
abbrev SeriesKey := String × String

/-- The contents of `log/repos/`: for each existing series file, the
list of (date, value) rows below the header. `none` means the file
does not exist. -/
abbrev SeriesStore := SeriesKey → Option (List (Date × Int))

/-- The empty `log/repos/` directory. -/
def emptySeries : SeriesStore := fun _ => none

/-- Write (create or overwrite) one series file. -/
def setSeries (store : SeriesStore) (k : SeriesKey) (v : List (Date × Int)) :
    SeriesStore :=
  fun k' => if k' = k then some v else store k'

/-- `Analytics.full2dir`: derive the repository directory name by
replacing the single characters the source replaces (`/` becomes `-`,
`.` and the space character are removed). -/
def full2dir (fullname : String) : String :=
  String.mk (fullname.data.foldr
    (fun c acc =>
      if c = '/' then '-' :: acc
      else if c = '.' then acc
      else if c = ' ' then acc
      else c :: acc) [])

/-- `Analytics.update_nondaily_metric` for one row: if the series file
does not exist, create it (header plus the single new line); otherwise
append the (snapshot date, value) line unconditionally. -/
def update_nondaily (store : SeriesStore) (dir metric : String)
    (date : Date) (value : Int) : SeriesStore :=
  match store (dir, metric) with
  | none => setSeries store (dir, metric) [(date, value)]
  | some l => setSeries store (dir, metric) (l ++ [(date, value)])

/-- `Analytics.update_daily_metric` for one row: sort the parsed
date-to-count mapping by date; if the series file does not exist,
create it with all of the sorted rows; otherwise read the existing
dates and append only the sorted rows whose date is absent. -/
def update_daily (store : SeriesStore) (dir metric : String)
    (dataCur : List (Date × Int)) : SeriesStore :=
  let sortedCur := dataCur.insertionSort (fun a b => a.1 ≤ b.1)
  match store (dir, metric) with
  | none => setSeries store (dir, metric) sortedCur
  | some prev =>
      setSeries store (dir, metric)
        (prev ++ sortedCur.filter (fun r => decide (r.1 ∉ prev.map Prod.fst)))

/-- One iteration of `Analytics.sort_raw_data` over a snapshot: for
each row, in order, update the six non-daily metrics and the four
daily-bucketed metrics of that repository.  (`create_repo_dirs` only
creates directories and mutates no series file, so it has no effect on
the store.) -/
def processSnapshot (store : SeriesStore) (snap : Date × List Row) :
    SeriesStore :=
  snap.2.foldl
    (fun s row =>
      let dir := full2dir row.repo
      let s := update_nondaily s dir "stars" snap.1 row.stars
      let s := update_nondaily s dir "forks" snap.1 row.forks
      let s := update_nondaily s dir "clones_2weeks" snap.1 row.clones_2weeks
      let s := update_nondaily s dir "clones_uniques_2weeks" snap.1 row.clones_uniques_2weeks
      let s := update_nondaily s dir "views_2weeks" snap.1 row.views_2weeks
      let s := update_nondaily s dir "views_uniques_2weeks" snap.1 row.views_uniques_2weeks
      let s := update_daily s dir "clones_daily" row.clones_daily
      let s := update_daily s dir "clones_uniques_daily" row.clones_uniques_daily
      let s := update_daily s dir "views_daily" row.views_daily
      let s := update_daily s dir "views_uniques_daily" row.views_uniques_daily
      s)
    store

/-- `Analytics.check_tracking_change`: with a previous log, the ended
list collects the previous repositories absent from the current log
(in previous-log order) and the began list collects the current
repositories absent from the previous log (in current-log order);
with no previous log every current repository began tracking.
Returns (began_tracking, ended_tracking). -/
def check_tracking_change (prevExists : Bool) (prevRows curRows : List Row) :
    List String × List String :=
  if prevExists then
    ((curRows.map (·.repo)).filter
       (fun r => decide (r ∉ prevRows.map (·.repo))),
     (prevRows.map (·.repo)).filter
       (fun r => decide (r ∉ curRows.map (·.repo))))
  else
    (curRows.map (·.repo), [])

/-- `Analytics.check_stars_change`: for each repository of the current
log (in order), if it also occurs in the previous log, compare the
stars value of its first current row with that of its first previous
row and record `(repo, str(cur - prev))` when they differ. -/
def check_stars_change (logRows prevRows : List Row) :
    List (String × String) :=
  (logRows.map (·.repo)).filterMap (fun repo =>
    if repo ∈ prevRows.map (·.repo) then
      match logRows.find? (fun r => r.repo == repo),
            prevRows.find? (fun r => r.repo == repo) with
      | some cr, some pr =>
          if cr.stars ≠ pr.stars then
            some (repo, toString (cr.stars - pr.stars))
          else none
      | _, _ => none
    else none)

/-- `Analytics.check_forks_change`: identical to the stars version but
on the forks column. -/
def check_forks_change (logRows prevRows : List Row) :
    List (String × String) :=
  (logRows.map (·.repo)).filterMap (fun repo =>
    if repo ∈ prevRows.map (·.repo) then
      match logRows.find? (fun r => r.repo == repo),
            prevRows.find? (fun r => r.repo == repo) with
      | some cr, some pr =>
          if cr.forks ≠ pr.forks then
            some (repo, toString (cr.forks - pr.forks))
          else none
      | _, _ => none
    else none)

/-- The whole filesystem state the ingestion touches. -/
structure FS where
  raw : List (Date × List Row)
  series : SeriesStore
  reports : List (Date × Report)

/-- Result of `Analytics.check_dirs`: the raw logs still needing
analytics, whether a previous analytics directory exists, and (when it
does) the rows of the raw log matching the newest analytics date. -/
structure CheckResult where
  needed : List Date
  prevExists : Bool
  prevLog : List Row
deriving DecidableEq, Repr

/-- `Analytics.check_dirs`: exit if there are no raw logs; otherwise
sort the raw log names and the analytics directory names.  When no
analytics directory exists every raw log needs analytics and there is
no previous log; otherwise read the raw log named by the newest
analytics date (a crash if that file is unreadable) and keep exactly
the raw logs dated strictly after that newest analytics date. -/
def check_dirs (fs : FS) : Except Unit CheckResult :=
  let raw_logs := (fs.raw.map Prod.fst).insertionSort (fun a b => a ≤ b)
  if raw_logs = [] then .error ()
  else
    let an_dirs := (fs.reports.map Prod.fst).insertionSort (fun a b => a ≤ b)
    match an_dirs.getLast? with
    | none => .ok ⟨raw_logs, false, []⟩
    | some last =>
        match List.lookup last fs.raw with
        | none => .error ()
        | some prevRows => .ok ⟨raw_logs.filter (fun d => decide (last < d)), true, prevRows⟩

/-- The body of the loop in `Analytics.run`: load each needed raw log
in order (a crash if one is unreadable) and merge it into the series
store; return the final store together with the date and rows of the
last log analyzed (the loop leaves `log_df` holding the last log). -/
def ingestLoop (raw : List (Date × List Row)) (store : SeriesStore) :
    List Date → Except Unit (SeriesStore × Date × List Row)
  | [] => .error ()
  | [d] =>
      match List.lookup d raw with
      | none => .error ()
      | some rows => .ok (processSnapshot store (d, rows), d, rows)
  | d :: d' :: ds =>
      match List.lookup d raw with
      | none => .error ()
      | some rows => ingestLoop raw (processSnapshot store (d, rows)) (d' :: ds)

/-- The analytics dictionary `Analytics.run` assembles after its loop
(from the last log analyzed and the previous log found by
`check_dirs`) and hands to `log_analytics`. -/
def mkReport (cd : CheckResult) (lastRows : List Row) : Report :=
  let te := check_tracking_change cd.prevExists cd.prevLog lastRows
  { began_tracking := te.1
    ended_tracking := te.2
    stars_change :=
      if cd.prevExists then check_stars_change lastRows cd.prevLog else []
    forks_change :=
      if cd.prevExists then check_forks_change lastRows cd.prevLog else [] }

/-- `Analytics.log_analytics`: write (mode "w", so create or
overwrite) the report file keyed by the date of the last log
analyzed. -/
def setReport (reports : List (Date × Report)) (d : Date) (r : Report) :
    List (Date × Report) :=
  if (List.lookup d reports).isSome then
    reports.map (fun p => if p.1 = d then (d, r) else p)
  else
    reports ++ [(d, r)]

/-- `Analytics.run`: check directories; when nothing needs analytics
do nothing; otherwise merge every needed raw log in order, then build
the analytics dictionary from the last log analyzed against the
previous log and persist it as the single report of this run. -/
def run (fs : FS) : Except Unit FS :=
  match check_dirs fs with
  | .error _ => .error ()
  | .ok cd =>
      match cd.needed with
      | [] => .ok fs
      | _ :: _ =>
          match ingestLoop fs.raw fs.series cd.needed with
          | .error _ => .error ()
          | .ok (store', lastD, lastRows) =>
              .ok { fs with
                      series := store'
                      reports := setReport fs.reports lastD (mkReport cd lastRows) }

/-- A run whose final report write fails: the process dies inside
`log_analytics` (step 6 of the orchestrator) after all series merges
were flushed, so the filesystem keeps the merged series but gains no
report. -/
def runMerges (fs : FS) : Except Unit FS :=
  match check_dirs fs with
  | .error _ => .error ()
  | .ok cd =>
      match cd.needed with
      | [] => .ok fs
      | _ :: _ =>
          match ingestLoop fs.raw fs.series cd.needed with
          | .error _ => .error ()
          | .ok (store', _, _) => .ok { fs with series := store' }

/-- The filesystem after a completed run, or unchanged when the run
already starts from an error. -/
def runD (fs : FS) : FS :=
  match run fs with
  | .ok fs' => fs'
  | .error _ => fs

/-- The filesystem after a run that crashes during the report write. -/
def runMergesD (fs : FS) : FS :=
  match runMerges fs with
  | .ok fs' => fs'
  | .error _ => fs

/-- Merging a list of snapshot dates in order, loading each from the
raw store (missing files read as empty); the pure counterpart of
`ingestLoop` used to state resumability. -/
def ingestDates (raw : List (Date × List Row)) (store : SeriesStore)
    (ds : List Date) : SeriesStore :=
  ds.foldl (fun s d => processSnapshot s (d, (List.lookup d raw).getD [])) store

/-- The sorted list of raw snapshot dates seen by `check_dirs`. -/
def sortedRawDates (fs : FS) : List Date :=
  (fs.raw.map Prod.fst).insertionSort (fun a b => a ≤ b)

/-- The date of the newest persisted report, as `check_dirs` computes
it: the last entry of the sorted report dates. -/
def newestReportDate (fs : FS) : Option Date :=
  ((fs.reports.map Prod.fst).insertionSort (fun a b => a ≤ b)).getLast?

/-- The list of snapshots a run would ingest. -/
def neededOf (fs : FS) : List Date :=
  match check_dirs fs with
  | .ok cd => cd.needed
  | .error _ => []

/-- The union of two date-to-value mappings keeping, for a date
present in both, the value of the first.  Modelled from the spec:
"processing the union of dates once, keeping the first-seen value for
any date present in both". -/
def unionFirst (m1 m2 : List (Date × Int)) : List (Date × Int) :=
  m1 ++ m2.filter (fun r => decide (r.1 ∉ m1.map Prod.fst))

/-! Concrete snapshot data used by counterexamples and witnesses. -/

/-- A one-repository snapshot row as of date 1. -/
def rowA : Row := ⟨"a", 5, 2, 4, 3, 9, 6, [(1, 3)], [(1, 1)], [(1, 7)], [(1, 4)]⟩

/-- The same repository one day later: stars went up by 2, and the
daily windows now also cover date 2. -/
def rowA2 : Row := ⟨"a", 7, 2, 4, 3, 9, 6, [(1, 3), (2, 5)], [(1, 1)], [(1, 7)], [(1, 4)]⟩

/-- The same repository at date 3 with one more fork. -/
def rowA3 : Row := ⟨"a", 7, 3, 4, 3, 9, 6, [(2, 5), (3, 1)], [], [], []⟩

/-- A second repository, first seen at date 2. -/
def rowB : Row := ⟨"b", 1, 0, 0, 0, 0, 0, [], [], [], []⟩

/-- A store holding only raw snapshot 1, nothing processed. -/
def fsOne : FS := ⟨[(1, [rowA])], emptySeries, []⟩

/-- Raw snapshots for dates 1 and 2. -/
def rawTwo : List (Date × List Row) := [(1, [rowA]), (2, [rowA2, rowB])]

/-- Raw snapshots for dates 1, 2 and 3. -/
def rawThree : List (Date × List Row) :=
  [(1, [rowA]), (2, [rowA2, rowB]), (3, [rowA3])]

/-- The report a first-ever ingestion of snapshot 1 writes. -/
def reportA : Report := ⟨["a"], [], [], []⟩

/-- A store where snapshot 1 exists and is already processed, so a run
has nothing to do. -/
def fsNoop : FS := ⟨[(1, [rowA])], emptySeries, [(1, reportA)]⟩

/-- A store holding raw snapshots 1 and 2 with snapshot 1 already
processed. -/
def fsTwo : FS := ⟨rawTwo, emptySeries, [(1, reportA)]⟩

/-- A store holding raw snapshots 1 and 2 whose series and reports
reflect exactly the processing of snapshot 1. -/
def fsResume : FS := ⟨rawTwo, ingestDates rawTwo emptySeries [1], [(1, reportA)]⟩

/-! Theorems. -/

lemma setSeries_self (store : SeriesStore) (k : SeriesKey)
    (v : List (Date × Int)) : setSeries store k v k = some v := by
  simp [setSeries]

lemma setSeries_ne (store : SeriesStore) (k k' : SeriesKey)
    (v : List (Date × Int)) (h : k' ≠ k) : setSeries store k v k' = store k' := by
  simp [setSeries, h]

lemma update_daily_of_none (store : SeriesStore) (dir metric : String)
    (dataCur : List (Date × Int)) (h : store (dir, metric) = none) :
    update_daily store dir metric dataCur
      = setSeries store (dir, metric)
          (dataCur.insertionSort (fun a b => a.1 ≤ b.1)) := by
  unfold update_daily
  rw [h]

lemma update_daily_of_some (store : SeriesStore) (dir metric : String)
    (dataCur prev : List (Date × Int)) (h : store (dir, metric) = some prev) :
    update_daily store dir metric dataCur
      = setSeries store (dir, metric)
          (prev ++ (dataCur.insertionSort (fun a b => a.1 ≤ b.1)).filter
            (fun r => decide (r.1 ∉ prev.map Prod.fst))) := by
  unfold update_daily
  rw [h]

lemma update_nondaily_of_none (store : SeriesStore) (dir metric : String)
    (date : Date) (value : Int) (h : store (dir, metric) = none) :
    update_nondaily store dir metric date value
      = setSeries store (dir, metric) [(date, value)] := by
  unfold update_nondaily
  rw [h]

lemma update_nondaily_of_some (store : SeriesStore) (dir metric : String)
    (date : Date) (value : Int) (l : List (Date × Int))
    (h : store (dir, metric) = some l) :
    update_nondaily store dir metric date value
      = setSeries store (dir, metric) (l ++ [(date, value)]) := by
  unfold update_nondaily
  rw [h]

lemma filter_absent_eq_nil (l base : List (Date × Int))
    (h : ∀ r ∈ l, r.1 ∈ base.map Prod.fst) :
    l.filter (fun r => decide (r.1 ∉ base.map Prod.fst)) = [] := by
  refine List.filter_eq_nil_iff.mpr (fun r hr => ?_)
  simpa using h r hr

lemma update_daily_repeat (store : SeriesStore) (dir metric : String)
    (dataCur : List (Date × Int)) (k : SeriesKey) :
    update_daily (update_daily store dir metric dataCur) dir metric dataCur k
      = update_daily store dir metric dataCur k := by
  cases h : store (dir, metric) with
  | none =>
      rw [update_daily_of_none store dir metric dataCur h]
      rw [update_daily_of_some _ dir metric dataCur _ (setSeries_self _ _ _)]
      rw [filter_absent_eq_nil _ _ (fun r hr => List.mem_map_of_mem Prod.fst hr),
        List.append_nil]
      by_cases hk : k = (dir, metric)
      · subst hk; rw [setSeries_self, setSeries_self]
      · rw [setSeries_ne _ _ _ _ hk, setSeries_ne _ _ _ _ hk]
  | some prev =>
      rw [update_daily_of_some store dir metric dataCur prev h]
      rw [update_daily_of_some _ dir metric dataCur _ (setSeries_self _ _ _)]
      have hout : (dataCur.insertionSort (fun a b => a.1 ≤ b.1)).filter
          (fun r => decide (r.1 ∉
            ((prev ++ (dataCur.insertionSort (fun a b => a.1 ≤ b.1)).filter
              (fun r => decide (r.1 ∉ prev.map Prod.fst))).map Prod.fst))) = [] := by
        refine filter_absent_eq_nil _ _ (fun r hr => ?_)
        rw [List.map_append, List.mem_append]
        by_cases hp : r.1 ∈ prev.map Prod.fst
        · exact Or.inl hp
        · refine Or.inr (List.mem_map_of_mem Prod.fst ?_)
          exact List.mem_filter.mpr ⟨hr, by simpa using hp⟩
      rw [hout, List.append_nil]
      by_cases hk : k = (dir, metric)
      · subst hk; rw [setSeries_self, setSeries_self]
      · rw [setSeries_ne _ _ _ _ hk, setSeries_ne _ _ _ _ hk]

lemma update_daily_ne (store : SeriesStore) (dir metric : String)
    (dataCur : List (Date × Int)) (k : SeriesKey) (h : k ≠ (dir, metric)) :
    update_daily store dir metric dataCur k = store k := by
  cases hs : store (dir, metric) with
  | none => rw [update_daily_of_none _ _ _ _ hs, setSeries_ne _ _ _ _ h]
  | some prev => rw [update_daily_of_some _ _ _ _ _ hs, setSeries_ne _ _ _ _ h]

lemma update_nondaily_ne (store : SeriesStore) (dir metric : String)
    (date : Date) (value : Int) (k : SeriesKey) (h : k ≠ (dir, metric)) :
    update_nondaily store dir metric date value k = store k := by
  cases hs : store (dir, metric) with
  | none => rw [update_nondaily_of_none _ _ _ _ _ hs, setSeries_ne _ _ _ _ h]
  | some l => rw [update_nondaily_of_some _ _ _ _ _ _ hs, setSeries_ne _ _ _ _ h]

lemma mem_map_fst_filter_absent (l base : List (Date × Int)) (x : Date) :
    x ∈ (l.filter (fun r => decide (r.1 ∉ base.map Prod.fst))).map Prod.fst
      ↔ x ∈ l.map Prod.fst ∧ x ∉ base.map Prod.fst := by
  simp only [List.mem_map, List.mem_filter, decide_eq_true_eq]
  constructor
  · rintro ⟨r, ⟨hrl, hrb⟩, rfl⟩
    exact ⟨⟨r, hrl, rfl⟩, hrb⟩
  · rintro ⟨⟨r, hrl, rfl⟩, hb⟩
    exact ⟨r, ⟨hrl, hb⟩, rfl⟩

/-- Claim C1 is false as stated: re-running the per-entity merge steps
for the same snapshot does not leave the series content identical to
one run — the stars series of repository a holds the date-1 point
twice after the repeat. -/
theorem merge_repeat_not_identical_cex :
    processSnapshot (processSnapshot emptySeries (1, [rowA])) (1, [rowA])
        ("a", "stars")
      ≠ processSnapshot emptySeries (1, [rowA]) ("a", "stars") := by
  decide

/-- Claim C1 (amended): repeating the merge steps for one snapshot is
safe only for the daily-bucketed merge, which it leaves unchanged; the
scalar and windowed append is not idempotent — the repeated call
appends the same (date, value) point a second time to its series, so a
re-run after a lost diff report duplicates every scalar point. -/
theorem merge_repeat_semantics (store : SeriesStore) (dir metric : String)
    (dataCur : List (Date × Int)) (date : Date) (value : Int) (k : SeriesKey) :
    update_daily (update_daily store dir metric dataCur) dir metric dataCur k
        = update_daily store dir metric dataCur k
    ∧ (update_nondaily (update_nondaily store dir metric date value)
          dir metric date value k).getD []
        = (update_nondaily store dir metric date value k).getD []
          ++ (if k = (dir, metric) then [(date, value)] else []) := by
  constructor
  · exact update_daily_repeat store dir metric dataCur k
  · cases h : store (dir, metric) with
    | none =>
        rw [update_nondaily_of_none store dir metric date value h]
        rw [update_nondaily_of_some _ dir metric date value _ (setSeries_self _ _ _)]
        by_cases hk : k = (dir, metric)
        · subst hk
          rw [setSeries_self, setSeries_self, if_pos rfl]
          rfl
        · rw [setSeries_ne _ _ _ _ hk, setSeries_ne _ _ _ _ hk, if_neg hk,
            List.append_nil]
    | some l =>
        rw [update_nondaily_of_some store dir metric date value l h]
        rw [update_nondaily_of_some _ dir metric date value _ (setSeries_self _ _ _)]
        by_cases hk : k = (dir, metric)
        · subst hk
          rw [setSeries_self, setSeries_self, if_pos rfl]
          simp [List.append_assoc]
        · rw [setSeries_ne _ _ _ _ hk, setSeries_ne _ _ _ _ hk, if_neg hk,
            List.append_nil]

/-- Claim C2 is false as stated: merging M1 = (date 2 count 5) and then
M2 = (date 1 count 7, date 2 count 9) into an empty series does not
yield a file identical to merging the first-seen union once — the
two-step merge stores date 1 after date 2, the one-shot merge stores
the dates ascending. -/
theorem daily_merge_union_not_identical_cex :
    update_daily (update_daily emptySeries "r" "clones_daily" [(2, 5)])
        "r" "clones_daily" [(1, 7), (2, 9)] ("r", "clones_daily")
      ≠ update_daily emptySeries "r" "clones_daily"
          (unionFirst [(2, 5)] [(1, 7), (2, 9)]) ("r", "clones_daily") := by
  decide

/-- Claim C2 (amended): merging M1 then M2 stores the same set of
(date, value) rows as a single merge of the first-seen union of the two
mappings — every series file of the two outcomes exists under the same
condition and holds permutations of the same rows (in particular the
same dates with the same first-seen values) — but the textual row order
can differ, because a later merge may append dates older than rows
already on file. -/
theorem daily_merge_union_content (store : SeriesStore) (dir metric : String)
    (m1 m2 : List (Date × Int)) (k : SeriesKey) :
    ((update_daily (update_daily store dir metric m1) dir metric m2 k).isSome
      = (update_daily store dir metric (unionFirst m1 m2) k).isSome)
    ∧ ((update_daily (update_daily store dir metric m1) dir metric m2 k).getD
          []).Perm
        ((update_daily store dir metric (unionFirst m1 m2) k).getD []) := by
  by_cases hk : k = (dir, metric)
  · subst hk
    cases hs : store (dir, metric) with
    | none =>
        rw [update_daily_of_none store dir metric m1 hs]
        rw [update_daily_of_some _ dir metric m2 _ (setSeries_self _ _ _)]
        rw [update_daily_of_none store dir metric (unionFirst m1 m2) hs]
        rw [setSeries_self, setSeries_self]
        refine ⟨rfl, ?_⟩
        simp only [Option.getD_some]
        have h1 : (m1.insertionSort (fun a b => a.1 ≤ b.1)).Perm m1 :=
          List.perm_insertionSort _ m1
        have hcongr :
            m2.filter (fun r => decide (r.1 ∉
                (m1.insertionSort (fun a b => a.1 ≤ b.1)).map Prod.fst))
              = m2.filter (fun r => decide (r.1 ∉ m1.map Prod.fst)) :=
          List.filter_congr (fun a _ => by
            simp [decide_eq_decide, (h1.map Prod.fst).mem_iff])
        have h2 : ((m2.insertionSort (fun a b => a.1 ≤ b.1)).filter
              (fun r => decide (r.1 ∉
                (m1.insertionSort (fun a b => a.1 ≤ b.1)).map Prod.fst))).Perm
            (m2.filter (fun r => decide (r.1 ∉ m1.map Prod.fst))) := by
          have := (List.perm_insertionSort (fun a b => a.1 ≤ b.1) m2).filter
            (fun r => decide (r.1 ∉
              (m1.insertionSort (fun a b => a.1 ≤ b.1)).map Prod.fst))
          rwa [hcongr] at this
        refine (h1.append h2).trans ?_
        simp only [unionFirst]
        exact (List.perm_insertionSort (fun a b : Date × Int => a.1 ≤ b.1)
          (m1 ++ m2.filter (fun r => decide (r.1 ∉ m1.map Prod.fst)))).symm
    | some prev =>
        rw [update_daily_of_some store dir metric m1 prev hs]
        rw [update_daily_of_some _ dir metric m2 _ (setSeries_self _ _ _)]
        rw [update_daily_of_some store dir metric (unionFirst m1 m2) prev hs]
        rw [setSeries_self, setSeries_self]
        refine ⟨rfl, ?_⟩
        simp only [Option.getD_some]
        rw [List.append_assoc]
        refine List.Perm.append_left prev ?_
        have hA1 : ((m1.insertionSort (fun a b => a.1 ≤ b.1)).filter
              (fun r => decide (r.1 ∉ prev.map Prod.fst))).Perm
            (m1.filter (fun r => decide (r.1 ∉ prev.map Prod.fst))) :=
          (List.perm_insertionSort _ m1).filter _
        have hS1mem : ∀ x : Date,
            x ∈ (m1.insertionSort (fun a b => a.1 ≤ b.1)).map Prod.fst
              ↔ x ∈ m1.map Prod.fst :=
          fun x => ((List.perm_insertionSort _ m1).map Prod.fst).mem_iff
        have hptwise : ∀ r ∈ m2,
            (decide (r.1 ∉ (prev ++
                (m1.insertionSort (fun a b => a.1 ≤ b.1)).filter
                  (fun s => decide (s.1 ∉ prev.map Prod.fst))).map Prod.fst))
              = (decide (r.1 ∉ prev.map Prod.fst)
                  && decide (r.1 ∉ m1.map Prod.fst)) := by
          intro r _
          rw [← Bool.decide_and]
          rw [decide_eq_decide]
          rw [List.map_append, List.mem_append, mem_map_fst_filter_absent]
          rw [hS1mem r.1]
          tauto
        have hF2 : ((m2.insertionSort (fun a b => a.1 ≤ b.1)).filter
              (fun r => decide (r.1 ∉ (prev ++
                (m1.insertionSort (fun a b => a.1 ≤ b.1)).filter
                  (fun s => decide (s.1 ∉ prev.map Prod.fst))).map Prod.fst))).Perm
            ((m2.filter (fun r => decide (r.1 ∉ m1.map Prod.fst))).filter
              (fun r => decide (r.1 ∉ prev.map Prod.fst))) := by
          have hp := (List.perm_insertionSort (fun a b => a.1 ≤ b.1) m2).filter
            (fun r => decide (r.1 ∉ (prev ++
              (m1.insertionSort (fun a b => a.1 ≤ b.1)).filter
                (fun s => decide (s.1 ∉ prev.map Prod.fst))).map Prod.fst))
          rw [List.filter_congr hptwise] at hp
          rwa [← List.filter_filter] at hp
        have hU : (unionFirst m1 m2).filter
              (fun r => decide (r.1 ∉ prev.map Prod.fst))
            = m1.filter (fun r => decide (r.1 ∉ prev.map Prod.fst))
              ++ (m2.filter (fun r => decide (r.1 ∉ m1.map Prod.fst))).filter
                  (fun r => decide (r.1 ∉ prev.map Prod.fst)) := by
          rw [unionFirst, List.filter_append]
        refine List.Perm.trans (hA1.append hF2) ?_
        rw [← hU]
        exact ((List.perm_insertionSort (fun a b : Date × Int => a.1 ≤ b.1)
          (unionFirst m1 m2)).filter _).symm
  · rw [update_daily_ne _ dir metric m2 k hk, update_daily_ne _ dir metric m1 k hk,
      update_daily_ne _ dir metric (unionFirst m1 m2) k hk]
    exact ⟨rfl, List.Perm.refl _⟩

/-- Claim C3 is false as stated: the ingestion pipeline itself can put
the same date twice into a series — when a run merges snapshot 1 but
dies while writing its diff report, the re-run (correctly re-detecting
snapshot 1 as unprocessed) appends the scalar points a second time, so
the stars series of repository a then lists date 1 twice. -/
theorem no_duplicate_dates_cex :
    ¬ ((((runD (runMergesD fsOne)).series ("a", "stars")).getD []).map
        Prod.fst).Nodup := by
  decide

/-- Claim C3 (amended): each date occurs at most once in every series
provided no snapshot merge is repeated — the daily merge always
preserves the at-most-once-per-date invariant (its per-snapshot
mapping has unique dates, being a parsed dict), while the scalar
append preserves it only when the appended snapshot date is not
already on file, which the pipeline guarantees only for runs that are
never re-run over the same snapshot. -/
theorem series_nodup_dates_preserved :
    (∀ (store : SeriesStore) (dir metric : String)
        (dataCur : List (Date × Int)),
      (∀ k, (((store k).getD []).map Prod.fst).Nodup) →
      (dataCur.map Prod.fst).Nodup →
      ∀ k, (((update_daily store dir metric dataCur k).getD []).map
        Prod.fst).Nodup)
    ∧ (∀ (store : SeriesStore) (dir metric : String) (date : Date)
          (value : Int),
      (∀ k, (((store k).getD []).map Prod.fst).Nodup) →
      date ∉ ((store (dir, metric)).getD []).map Prod.fst →
      ∀ k, (((update_nondaily store dir metric date value k).getD []).map
        Prod.fst).Nodup) := by
  constructor
  · intro store dir metric dataCur hinv hdc k
    by_cases hk : k = (dir, metric)
    · subst hk
      cases hs : store (dir, metric) with
      | none =>
          rw [update_daily_of_none _ _ _ _ hs, setSeries_self, Option.getD_some]
          exact (((List.perm_insertionSort (fun a b : Date × Int => a.1 ≤ b.1)
            dataCur).map Prod.fst).nodup_iff).mpr hdc
      | some prev =>
          rw [update_daily_of_some _ _ _ _ _ hs, setSeries_self, Option.getD_some,
            List.map_append]
          have hprev : (prev.map Prod.fst).Nodup := by
            have := hinv (dir, metric)
            rwa [hs, Option.getD_some] at this
          have hSdates : ((dataCur.insertionSort
              (fun a b : Date × Int => a.1 ≤ b.1)).map Prod.fst).Nodup :=
            (((List.perm_insertionSort (fun a b : Date × Int => a.1 ≤ b.1)
              dataCur).map Prod.fst).nodup_iff).mpr hdc
          refine List.nodup_append.mpr ⟨hprev, ?_, ?_⟩
          · exact hSdates.sublist
              ((List.filter_sublist _).map Prod.fst)
          · intro x hx hx'
            exact ((mem_map_fst_filter_absent _ prev x).mp hx').2 hx
    · rw [update_daily_ne _ _ _ _ _ hk]
      exact hinv k
  · intro store dir metric date value hinv hd k
    by_cases hk : k = (dir, metric)
    · subst hk
      cases hs : store (dir, metric) with
      | none =>
          rw [update_nondaily_of_none _ _ _ _ _ hs, setSeries_self,
            Option.getD_some]
          simp
      | some l =>
          rw [update_nondaily_of_some _ _ _ _ _ _ hs, setSeries_self,
            Option.getD_some, List.map_append]
          have hl : (l.map Prod.fst).Nodup := by
            have := hinv (dir, metric)
            rwa [hs, Option.getD_some] at this
          have hd' : date ∉ l.map Prod.fst := by
            rw [hs, Option.getD_some] at hd
            exact hd
          refine List.nodup_append.mpr ⟨hl, by simp, ?_⟩
          intro x hx hx'
          simp only [List.map_cons, List.map_nil, List.mem_singleton] at hx'
          subst hx'
          exact hd' hx
    · rw [update_nondaily_ne _ _ _ _ _ _ hk]
      exact hinv k

/-- Witness for the amended C3 theorem at concrete inputs: a daily
merge of a two-date mapping into the empty store and a scalar append
into the empty store both leave duplicate-free dates. -/
theorem series_nodup_dates_preserved_witness :
    (((update_daily emptySeries "r" "clones_daily" [(1, 3), (2, 4)]
        ("r", "clones_daily")).getD []).map Prod.fst).Nodup
    ∧ (((update_nondaily emptySeries "r" "stars" 1 5
        ("r", "stars")).getD []).map Prod.fst).Nodup := by
  constructor
  · exact series_nodup_dates_preserved.1 emptySeries "r" "clones_daily"
      [(1, 3), (2, 4)] (fun k => by simp [emptySeries]) (by decide)
      ("r", "clones_daily")
  · exact series_nodup_dates_preserved.2 emptySeries "r" "stars" 1 5
      (fun k => by simp [emptySeries]) (by simp [emptySeries]) ("r", "stars")

/-- Claim C6: with a previous log the began-tracking entities are
exactly those present in the current table and absent from the
previous one, the ended-tracking entities exactly those present in the
previous table and absent from the current one; with no previous log
every current entity began tracking and nothing ended. -/
theorem tracking_change_membership (prevRows curRows : List Row) :
    (∀ r, r ∈ (check_tracking_change true prevRows curRows).1
        ↔ r ∈ curRows.map (·.repo) ∧ r ∉ prevRows.map (·.repo))
    ∧ (∀ r, r ∈ (check_tracking_change true prevRows curRows).2
        ↔ r ∈ prevRows.map (·.repo) ∧ r ∉ curRows.map (·.repo))
    ∧ check_tracking_change false prevRows curRows
        = (curRows.map (·.repo), []) := by
  refine ⟨fun r => ?_, fun r => ?_, ?_⟩
  · simp [check_tracking_change, List.mem_filter]
  · simp [check_tracking_change, List.mem_filter]
  · simp [check_tracking_change]

lemma stars_change_mem_iff (logRows prevRows : List Row) (repo s : String) :
    (repo, s) ∈ check_stars_change logRows prevRows
      ↔ ∃ cr pr, logRows.find? (fun r => r.repo == repo) = some cr
          ∧ prevRows.find? (fun r => r.repo == repo) = some pr
          ∧ cr.stars ≠ pr.stars ∧ s = toString (cr.stars - pr.stars) := by
  constructor
  · intro h
    obtain ⟨a, ha, hfa⟩ := List.mem_filterMap.mp h
    by_cases hmem : a ∈ prevRows.map (·.repo)
    · rw [if_pos hmem] at hfa
      cases hcur : logRows.find? (fun r => r.repo == a) with
      | none =>
          rw [hcur] at hfa
          cases hprev : prevRows.find? (fun r => r.repo == a) <;>
            rw [hprev] at hfa <;> simp at hfa
      | some cr =>
          cases hprev : prevRows.find? (fun r => r.repo == a) with
          | none => rw [hcur, hprev] at hfa; simp at hfa
          | some pr =>
              rw [hcur, hprev] at hfa
              dsimp only at hfa
              by_cases hne : cr.stars ≠ pr.stars
              · rw [if_pos hne] at hfa
                have hpair := Option.some.inj hfa
                have hrepo : a = repo := congrArg Prod.fst hpair
                have hval : toString (cr.stars - pr.stars) = s :=
                  congrArg Prod.snd hpair
                subst hrepo
                exact ⟨cr, pr, hcur, hprev, hne, hval.symm⟩
              · rw [if_neg hne] at hfa; simp at hfa
    · rw [if_neg hmem] at hfa; simp at hfa
  · rintro ⟨cr, pr, hcur, hprev, hne, hs⟩
    refine List.mem_filterMap.mpr ⟨repo, ?_, ?_⟩
    · have h1 : cr.repo = repo := by simpa using List.find?_some hcur
      have h2 := List.mem_of_find?_eq_some hcur
      exact h1 ▸ List.mem_map_of_mem (·.repo) h2
    · have hmem : repo ∈ prevRows.map (·.repo) := by
        have h1 : pr.repo = repo := by simpa using List.find?_some hprev
        have h2 := List.mem_of_find?_eq_some hprev
        exact h1 ▸ List.mem_map_of_mem (·.repo) h2
      rw [if_pos hmem, hcur, hprev]
      dsimp only
      rw [if_pos hne, hs]

lemma forks_change_mem_iff (logRows prevRows : List Row) (repo s : String) :
    (repo, s) ∈ check_forks_change logRows prevRows
      ↔ ∃ cr pr, logRows.find? (fun r => r.repo == repo) = some cr
          ∧ prevRows.find? (fun r => r.repo == repo) = some pr
          ∧ cr.forks ≠ pr.forks ∧ s = toString (cr.forks - pr.forks) := by
  constructor
  · intro h
    obtain ⟨a, ha, hfa⟩ := List.mem_filterMap.mp h
    by_cases hmem : a ∈ prevRows.map (·.repo)
    · rw [if_pos hmem] at hfa
      cases hcur : logRows.find? (fun r => r.repo == a) with
      | none =>
          rw [hcur] at hfa
          cases hprev : prevRows.find? (fun r => r.repo == a) <;>
            rw [hprev] at hfa <;> simp at hfa
      | some cr =>
          cases hprev : prevRows.find? (fun r => r.repo == a) with
          | none => rw [hcur, hprev] at hfa; simp at hfa
          | some pr =>
              rw [hcur, hprev] at hfa
              dsimp only at hfa
              by_cases hne : cr.forks ≠ pr.forks
              · rw [if_pos hne] at hfa
                have hpair := Option.some.inj hfa
                have hrepo : a = repo := congrArg Prod.fst hpair
                have hval : toString (cr.forks - pr.forks) = s :=
                  congrArg Prod.snd hpair
                subst hrepo
                exact ⟨cr, pr, hcur, hprev, hne, hval.symm⟩
              · rw [if_neg hne] at hfa; simp at hfa
    · rw [if_neg hmem] at hfa; simp at hfa
  · rintro ⟨cr, pr, hcur, hprev, hne, hs⟩
    refine List.mem_filterMap.mpr ⟨repo, ?_, ?_⟩
    · have h1 : cr.repo = repo := by simpa using List.find?_some hcur
      have h2 := List.mem_of_find?_eq_some hcur
      exact h1 ▸ List.mem_map_of_mem (·.repo) h2
    · have hmem : repo ∈ prevRows.map (·.repo) := by
        have h1 : pr.repo = repo := by simpa using List.find?_some hprev
        have h2 := List.mem_of_find?_eq_some hprev
        exact h1 ▸ List.mem_map_of_mem (·.repo) h2
      rw [if_pos hmem, hcur, hprev]
      dsimp only
      rw [if_pos hne, hs]

/-- Claim C7: a pair is in the stars (resp. forks) change list exactly
when its repository occurs in both the current and the previous
tables (the first matching row of each is compared), the values
differ, and the recorded value is the decimal string of the signed
integer difference current minus previous; entities in only one table
or with an unchanged value contribute nothing. -/
theorem scalar_delta_characterization (logRows prevRows : List Row)
    (repo s : String) :
    ((repo, s) ∈ check_stars_change logRows prevRows
      ↔ ∃ cr pr, logRows.find? (fun r => r.repo == repo) = some cr
          ∧ prevRows.find? (fun r => r.repo == repo) = some pr
          ∧ cr.stars ≠ pr.stars ∧ s = toString (cr.stars - pr.stars))
    ∧ ((repo, s) ∈ check_forks_change logRows prevRows
      ↔ ∃ cr pr, logRows.find? (fun r => r.repo == repo) = some cr
          ∧ prevRows.find? (fun r => r.repo == repo) = some pr
          ∧ cr.forks ≠ pr.forks ∧ s = toString (cr.forks - pr.forks)) :=
  ⟨stars_change_mem_iff logRows prevRows repo s,
   forks_change_mem_iff logRows prevRows repo s⟩

/-- Claim C8: with no raw snapshots at all, `check_dirs` and the run
fail fatally before touching any state; when `check_dirs` succeeds but
finds nothing unprocessed, the run returns the store unchanged — no
series or report mutation. -/
theorem loader_failure_and_noop (fs : FS) :
    (fs.raw = [] → check_dirs fs = .error () ∧ run fs = .error ())
    ∧ (∀ cd, check_dirs fs = .ok cd → cd.needed = [] → run fs = .ok fs) := by
  constructor
  · intro h
    have hc : check_dirs fs = .error () := by
      simp [check_dirs, h]
    exact ⟨hc, by rw [run, hc]⟩
  · intro cd hok hne
    rw [run, hok]
    dsimp only
    rw [hne]

/-- Witness for C8 at concrete stores: the run on an empty raw
directory exits, and a run on a store whose single snapshot already
has its report leaves the store untouched. -/
theorem loader_failure_and_noop_witness :
    check_dirs (FS.mk [] emptySeries []) = .error ()
    ∧ run fsNoop = .ok fsNoop :=
  ⟨((loader_failure_and_noop (FS.mk [] emptySeries [])).1 rfl).1,
   (loader_failure_and_noop fsNoop).2 ⟨[], true, [rowA]⟩ rfl rfl⟩

lemma sorted_le_getLast {l : List Nat} (hs : List.Sorted (· ≤ ·) l)
    (m : Nat) (hm : l.getLast? = some m) : ∀ r ∈ l, r ≤ m := by
  induction l with
  | nil => simp at hm
  | cons a t ih =>
      intro r hr
      cases t with
      | nil =>
          simp only [List.getLast?_singleton, Option.some.injEq] at hm
          simp only [List.mem_singleton] at hr
          subst hm; subst hr; exact le_refl r
      | cons b t' =>
          rw [List.getLast?_cons_cons] at hm
          rcases List.mem_cons.mp hr with rfl | hr'
          · exact (List.sorted_cons.mp hs).1 m (List.mem_of_getLast?_eq_some hm)
          · exact ih (List.sorted_cons.mp hs).2 hm r hr'

/-- Claim C9: when at least one report exists, a raw snapshot date is
selected for processing exactly when it is strictly greater than the
newest report date — which is indeed the maximum of all report dates —
so a gap snapshot older than the newest report is never selected even
though its own report is missing. -/
theorem unprocessed_selection_newest_only (fs : FS) (cd : CheckResult)
    (m : Date) (hok : check_dirs fs = .ok cd)
    (hm : newestReportDate fs = some m) :
    (∀ d, d ∈ cd.needed ↔ d ∈ fs.raw.map Prod.fst ∧ m < d)
    ∧ (∀ r ∈ fs.reports.map Prod.fst, r ≤ m) := by
  have hm' : ((fs.reports.map Prod.fst).insertionSort
      (fun a b => a ≤ b)).getLast? = some m := hm
  rw [check_dirs] at hok
  dsimp only at hok
  by_cases hraw : (fs.raw.map Prod.fst).insertionSort (fun a b => a ≤ b) = []
  · rw [if_pos hraw] at hok; cases hok
  · rw [if_neg hraw] at hok
    rw [hm'] at hok
    dsimp only at hok
    cases hlk : List.lookup m fs.raw with
    | none => rw [hlk] at hok; cases hok
    | some prevRows =>
        rw [hlk] at hok
        dsimp only at hok
        have hcd := Except.ok.inj hok
        constructor
        · intro d
          rw [← hcd]
          simp [List.mem_filter, List.mem_insertionSort]
        · intro r hr
          refine sorted_le_getLast (List.sorted_insertionSort _ _) m hm' r ?_
          exact (List.mem_insertionSort _).mpr hr

/-- Witness for C9 on a concrete store: with reports only for date 1
and raw snapshots 1 and 2, the selected dates are exactly the raw
dates above 1, and 1 bounds every report date. -/
theorem unprocessed_selection_newest_only_witness :
    (∀ d, d ∈ (CheckResult.mk [2] true [rowA]).needed
        ↔ d ∈ fsTwo.raw.map Prod.fst ∧ 1 < d)
    ∧ (∀ r ∈ fsTwo.reports.map Prod.fst, r ≤ 1) :=
  unprocessed_selection_newest_only fsTwo ⟨[2], true, [rowA]⟩ 1 rfl rfl

lemma lookup_map_replace (t : List (Date × Report)) (d d' : Date) (r : Report)
    (h : d' ≠ d) :
    List.lookup d' (t.map (fun p => if p.1 = d then (d, r) else p))
      = List.lookup d' t := by
  induction t with
  | nil => rfl
  | cons p t ih =>
      obtain ⟨pd, pr⟩ := p
      by_cases hp : pd = d
      · subst hp
        rw [List.map_cons, if_pos rfl]
        rw [List.lookup_cons, List.lookup_cons]
        have hne : (d' == pd) = false := beq_false_of_ne h
        rw [hne]
        exact ih
      · rw [List.map_cons, if_neg (by simpa using hp)]
        rw [List.lookup_cons, List.lookup_cons]
        cases hdd : d' == pd with
        | true => rfl
        | false => exact ih

lemma lookup_setReport_ne (reports : List (Date × Report)) (d d' : Date)
    (r : Report) (h : d' ≠ d) :
    List.lookup d' (setReport reports d r) = List.lookup d' reports := by
  unfold setReport
  by_cases hs : (List.lookup d reports).isSome
  · rw [if_pos hs]
    exact lookup_map_replace reports d d' r h
  · rw [if_neg hs, List.lookup_append]
    have h1 : List.lookup d' [(d, r)] = none := by
      rw [List.lookup_cons, beq_false_of_ne h]
      rfl
    rw [h1]
    cases List.lookup d' reports <;> rfl

lemma ingestLoop_last_mem (raw : List (Date × List Row)) (ds : List Date) :
    ∀ (store a : SeriesStore) (lastD : Date) (lastRows : List Row),
      ingestLoop raw store ds = .ok (a, lastD, lastRows) → lastD ∈ ds := by
  induction ds with
  | nil => intro store a lastD lastRows h; simp [ingestLoop] at h
  | cons d t ih =>
      intro store a lastD lastRows h
      cases t with
      | nil =>
          unfold ingestLoop at h
          cases hlk : List.lookup d raw with
          | none => rw [hlk] at h; simp at h
          | some rows =>
              rw [hlk] at h
              dsimp only at h
              have h2 : d = lastD := by
                have := Except.ok.inj h
                exact congrArg (fun q => q.2.1) this
              rw [← h2]
              exact List.mem_singleton_self d
      | cons d' t' =>
          unfold ingestLoop at h
          cases hlk : List.lookup d raw with
          | none => rw [hlk] at h; simp at h
          | some rows =>
              rw [hlk] at h
              dsimp only at h
              exact List.mem_cons_of_mem d (ih _ _ _ _ h)

/-- Claim C5 is false as stated: a run over several unprocessed
snapshots writes no per-snapshot reports for the earlier ones.  With
snapshot 1 processed and snapshots 2 and 3 captured since, the re-run
ingests snapshot 2 yet leaves it without any report. -/
theorem one_report_per_snapshot_cex :
    2 ∈ neededOf (FS.mk rawThree (runD fsOne).series (runD fsOne).reports)
    ∧ List.lookup 2
        (runD (FS.mk rawThree (runD fsOne).series (runD fsOne).reports)).reports
      = none := by
  decide

/-- Claim C5 (amended): each run persists exactly one diff report,
keyed by the last (newest) snapshot date it ingests, with content
computed from that last snapshot's table against the raw table named
by the newest pre-run report (or the all-new report when none
existed); every other report key, including the earlier snapshots of
the same run, is left without a new report. -/
theorem single_report_per_run (fs : FS) (cd : CheckResult)
    (store' : SeriesStore) (lastD : Date) (lastRows : List Row)
    (hok : check_dirs fs = .ok cd)
    (hingest : ingestLoop fs.raw fs.series cd.needed
      = .ok (store', lastD, lastRows)) :
    run fs = .ok { fs with
                     series := store'
                     reports := setReport fs.reports lastD (mkReport cd lastRows) }
    ∧ lastD ∈ cd.needed
    ∧ (∀ d, d ≠ lastD →
        List.lookup d (setReport fs.reports lastD (mkReport cd lastRows))
          = List.lookup d fs.reports) := by
  refine ⟨?_, ingestLoop_last_mem fs.raw cd.needed _ _ _ _ hingest,
    fun d hd => lookup_setReport_ne fs.reports lastD d _ hd⟩
  rw [run, hok]
  dsimp only
  cases hne : cd.needed with
  | nil => rw [hne] at hingest; simp [ingestLoop] at hingest
  | cons d0 t =>
      rw [hne] at hingest
      rw [hingest]

/-- Witness for the amended C5 theorem: the resumed run over raw
snapshots 1, 2 and 3 (with 1 already processed) ends in exactly the
predicted store, its single new report keyed by date 3. -/
theorem single_report_per_run_witness :
    run (FS.mk rawThree (runD fsOne).series (runD fsOne).reports)
      = .ok { FS.mk rawThree (runD fsOne).series (runD fsOne).reports with
                series := (runD (FS.mk rawThree (runD fsOne).series
                  (runD fsOne).reports)).series
                reports := setReport (runD fsOne).reports 3
                  (mkReport ⟨[2, 3], true, [rowA]⟩
                    ((List.lookup 3 rawThree).getD [])) }
    ∧ 3 ∈ (CheckResult.mk [2, 3] true [rowA]).needed
    ∧ (∀ d, d ≠ 3 →
        List.lookup d (setReport (runD fsOne).reports 3
          (mkReport ⟨[2, 3], true, [rowA]⟩ ((List.lookup 3 rawThree).getD [])))
          = List.lookup d (runD fsOne).reports) :=
  single_report_per_run (FS.mk rawThree (runD fsOne).series (runD fsOne).reports)
    ⟨[2, 3], true, [rowA]⟩
    (runD (FS.mk rawThree (runD fsOne).series (runD fsOne).reports)).series
    3 ((List.lookup 3 rawThree).getD []) rfl rfl

/-- Claim C10: a completed run never touches the raw snapshot store —
the model writes only the series store and the report store — and
among the persisted reports it can change at most the one keyed by a
date the run ingested: every report for a date outside the run's
unprocessed set is looked up unchanged afterwards. -/
theorem run_frame (fs fs' : FS) (h : run fs = .ok fs') :
    fs'.raw = fs.raw
    ∧ ∀ d, d ∉ neededOf fs →
        List.lookup d fs'.reports = List.lookup d fs.reports := by
  rw [run] at h
  cases hok : check_dirs fs with
  | error e => rw [hok] at h; cases h
  | ok cd =>
      rw [hok] at h
      dsimp only at h
      cases hne : cd.needed with
      | nil =>
          rw [hne] at h
          dsimp only at h
          have hfs := Except.ok.inj h
          rw [← hfs]
          exact ⟨rfl, fun d _ => rfl⟩
      | cons d0 t =>
          rw [hne] at h
          cases hing : ingestLoop fs.raw fs.series (d0 :: t) with
          | error e => rw [hing] at h; cases h
          | ok res =>
              obtain ⟨store', lastD, lastRows⟩ := res
              rw [hing] at h
              dsimp only at h
              have hfs := Except.ok.inj h
              rw [← hfs]
              refine ⟨rfl, fun d hd => ?_⟩
              refine lookup_setReport_ne fs.reports lastD d _ (fun hEq => hd ?_)
              have hmem : lastD ∈ d0 :: t :=
                ingestLoop_last_mem fs.raw (d0 :: t) _ _ _ _ hing
              have hneed : neededOf fs = cd.needed := by
                rw [neededOf, hok]
              rw [hneed, hne]
              exact hEq ▸ hmem

/-- Witness for C10: the first-ever run over snapshot 1 leaves the raw
directory identical and every report outside its unprocessed set
unchanged. -/
theorem run_frame_witness :
    (runD fsOne).raw = fsOne.raw
    ∧ ∀ d, d ∉ neededOf fsOne →
        List.lookup d (runD fsOne).reports = List.lookup d fsOne.reports :=
  run_frame fsOne (runD fsOne) rfl

lemma ingestDates_append (raw : List (Date × List Row)) (store : SeriesStore)
    (l1 l2 : List Date) :
    ingestDates raw store (l1 ++ l2)
      = ingestDates raw (ingestDates raw store l1) l2 := by
  simp [ingestDates, List.foldl_append]

lemma sorted_filter_le_append_gt (m : Nat) :
    ∀ l : List Nat, List.Pairwise (· ≤ ·) l →
      l.filter (fun d => decide (d ≤ m)) ++ l.filter (fun d => decide (m < d))
        = l := by
  intro l
  induction l with
  | nil => intro _; rfl
  | cons a t ih =>
      intro hl
      have hpair := List.pairwise_cons.mp hl
      by_cases ha : a ≤ m
      · rw [List.filter_cons_of_pos (by simpa using ha),
          List.filter_cons_of_neg (by simpa using Nat.not_lt.mpr ha),
          List.cons_append, ih hpair.2]
      · have ham : m < a := Nat.not_le.mp ha
        rw [List.filter_cons_of_neg (by simpa using ha),
          List.filter_cons_of_pos (by simpa using ham)]
        have h1 : t.filter (fun d => decide (d ≤ m)) = [] :=
          List.filter_eq_nil_iff.mpr (fun x hx => by
            simp only [decide_eq_true_eq]
            exact Nat.not_le.mpr (Nat.lt_of_lt_of_le ham (hpair.1 x hx)))
        have h2 : t.filter (fun d => decide (m < d)) = t :=
          List.filter_eq_self.mpr (fun x hx => by
            simp only [decide_eq_true_eq]
            exact Nat.lt_of_lt_of_le ham (hpair.1 x hx))
        rw [h1, h2, List.nil_append]

lemma ingestLoop_eq_ingestDates (raw : List (Date × List Row)) :
    ∀ (ds : List Date) (store : SeriesStore) (lastD : Date),
      ds.getLast? = some lastD →
      (∀ d ∈ ds, (List.lookup d raw).isSome) →
      ingestLoop raw store ds
        = .ok (ingestDates raw store ds, lastD, (List.lookup lastD raw).getD []) := by
  intro ds
  induction ds with
  | nil => intro store lastD h _; simp at h
  | cons d t ih =>
      intro store lastD hlast hall
      cases t with
      | nil =>
          simp only [List.getLast?_singleton, Option.some.injEq] at hlast
          subst hlast
          obtain ⟨rows, hrows⟩ :=
            Option.isSome_iff_exists.mp (hall d (List.mem_singleton_self d))
          unfold ingestLoop
          rw [hrows]
          simp [ingestDates, hrows]
      | cons d' t' =>
          rw [List.getLast?_cons_cons] at hlast
          obtain ⟨rows, hrows⟩ :=
            Option.isSome_iff_exists.mp (hall d (List.mem_cons_self d _))
          unfold ingestLoop
          rw [hrows]
          dsimp only
          rw [ih _ lastD hlast (fun x hx => hall x (List.mem_cons_of_mem d hx))]
          simp [ingestDates, hrows]

lemma lookup_isSome_of_mem_fst {l : List (Date × List Row)} {d : Date}
    (h : d ∈ l.map Prod.fst) : (List.lookup d l).isSome := by
  refine List.lookup_isSome_iff.mpr ?_
  obtain ⟨p, hp, hfst⟩ := List.mem_map.mp h
  exact ⟨p, hp, by simp [hfst]⟩

/-- Claim C4 is false as stated: resuming after snapshot 1 was already
processed does not reproduce the report state of a from-scratch run
over snapshots 1 and 2 — the resumed history keeps the report of
snapshot 1, while the from-scratch run (which ingests both snapshots
in one pass) writes no report for date 1 at all. -/
theorem resumability_cex :
    List.lookup 1
        (runD (FS.mk rawTwo (runD fsOne).series (runD fsOne).reports)).reports
      ≠ List.lookup 1 (runD (FS.mk rawTwo emptySeries [])).reports := by
  decide

lemma run_ok_of_check (fs : FS) (cd : CheckResult) (lastD : Date)
    (hok : check_dirs fs = .ok cd)
    (hlast : cd.needed.getLast? = some lastD)
    (hall : ∀ d ∈ cd.needed, (List.lookup d fs.raw).isSome) :
    run fs = .ok { fs with
      series := ingestDates fs.raw fs.series cd.needed
      reports := setReport fs.reports lastD
        (mkReport cd ((List.lookup lastD fs.raw).getD [])) } := by
  have hloop := ingestLoop_eq_ingestDates fs.raw cd.needed fs.series lastD hlast hall
  rw [run, hok]
  dsimp only
  cases hne : cd.needed with
  | nil => rw [hne] at hlast; simp at hlast
  | cons d0 t =>
      rw [hne] at hloop
      rw [hloop]

/-- Claim C4 (amended): when reports cover exactly the raw snapshots
dated up to the newest report date m (whose raw log is still
readable) and the series holds exactly the merges of those snapshots,
a re-run selects exactly the raw snapshot dates strictly after m, in
ascending order, and completes with the same series content as one
from-scratch run over all raw snapshots; the report state of the two
histories however differs in general (see the counterexample), since
every run persists a report only for its last snapshot. -/
theorem chronological_resumability (fs : FS) (m : Date) (prevRows : List Row)
    (hm : newestReportDate fs = some m)
    (hlk : List.lookup m fs.raw = some prevRows)
    (hser : fs.series
      = ingestDates fs.raw emptySeries
          ((sortedRawDates fs).filter (fun d => decide (d ≤ m)))) :
    neededOf fs = (sortedRawDates fs).filter (fun d => decide (m < d))
    ∧ (∃ fs', run fs = .ok fs'
        ∧ fs'.series = ingestDates fs.raw emptySeries (sortedRawDates fs))
    ∧ (∃ fsS, run (FS.mk fs.raw emptySeries []) = .ok fsS
        ∧ fsS.series = ingestDates fs.raw emptySeries (sortedRawDates fs)) := by
  simp only [sortedRawDates] at hser ⊢
  have hm' : ((fs.reports.map Prod.fst).insertionSort
      (fun a b => a ≤ b)).getLast? = some m := hm
  have hsorted : List.Pairwise (· ≤ ·)
      ((fs.raw.map Prod.fst).insertionSort (fun a b => a ≤ b)) :=
    List.sorted_insertionSort _ _
  have hraw_ne : (fs.raw.map Prod.fst).insertionSort (fun a b => a ≤ b) ≠ [] := by
    intro h0
    have hp := List.perm_insertionSort (fun a b : Date => a ≤ b)
      (fs.raw.map Prod.fst)
    rw [h0] at hp
    have hmapnil : fs.raw.map Prod.fst = [] :=
      List.length_eq_zero.mp (by simpa using hp.length_eq.symm)
    have hnil : fs.raw = [] := by simpa using hmapnil
    rw [hnil] at hlk
    simp at hlk
  have hok : check_dirs fs
      = .ok ⟨((fs.raw.map Prod.fst).insertionSort (fun a b => a ≤ b)).filter
              (fun d => decide (m < d)), true, prevRows⟩ := by
    rw [check_dirs]
    dsimp only
    rw [if_neg hraw_ne, hm']
    dsimp only
    rw [hlk]
  have hneed : neededOf fs
      = ((fs.raw.map Prod.fst).insertionSort (fun a b => a ≤ b)).filter
          (fun d => decide (m < d)) := by
    rw [neededOf, hok]
  refine ⟨hneed, ?_, ?_⟩
  · cases hflt : ((fs.raw.map Prod.fst).insertionSort (fun a b => a ≤ b)).filter
        (fun d => decide (m < d)) with
    | nil =>
        have hrun : run fs = .ok fs := by
          rw [run, hok]
          dsimp only
          rw [hflt]
        refine ⟨fs, hrun, ?_⟩
        rw [hser]
        conv_rhs => rw [← sorted_filter_le_append_gt m
          ((fs.raw.map Prod.fst).insertionSort (fun a b => a ≤ b)) hsorted]
        rw [ingestDates_append, hflt]
        rfl
    | cons d0 t =>
        obtain ⟨lastD, hlast⟩ : ∃ lD,
            (((fs.raw.map Prod.fst).insertionSort (fun a b => a ≤ b)).filter
              (fun d => decide (m < d))).getLast? = some lD := by
          rw [hflt]
          cases hc : (d0 :: t).getLast? with
          | none => simp at hc
          | some x => exact ⟨x, rfl⟩
        have hall : ∀ d ∈ ((fs.raw.map Prod.fst).insertionSort
              (fun a b => a ≤ b)).filter (fun d => decide (m < d)),
            (List.lookup d fs.raw).isSome := by
          intro d hd
          exact lookup_isSome_of_mem_fst
            ((List.mem_insertionSort _).mp (List.mem_of_mem_filter hd))
        have hrun := run_ok_of_check fs
          ⟨((fs.raw.map Prod.fst).insertionSort (fun a b => a ≤ b)).filter
            (fun d => decide (m < d)), true, prevRows⟩ lastD hok hlast hall
        refine ⟨_, hrun, ?_⟩
        show ingestDates fs.raw fs.series
            (((fs.raw.map Prod.fst).insertionSort (fun a b => a ≤ b)).filter
              (fun d => decide (m < d)))
          = ingestDates fs.raw emptySeries
              ((fs.raw.map Prod.fst).insertionSort (fun a b => a ≤ b))
        rw [hser, ← ingestDates_append,
          sorted_filter_le_append_gt m _ hsorted]
  · have hokS : check_dirs (FS.mk fs.raw emptySeries [])
        = .ok ⟨(fs.raw.map Prod.fst).insertionSort (fun a b => a ≤ b),
               false, []⟩ := by
      rw [check_dirs]
      dsimp only
      rw [if_neg hraw_ne]
      rfl
    obtain ⟨lastS, hlS⟩ : ∃ lS,
        ((fs.raw.map Prod.fst).insertionSort (fun a b => a ≤ b)).getLast?
          = some lS := by
      cases hc : ((fs.raw.map Prod.fst).insertionSort
          (fun a b => a ≤ b)).getLast? with
      | none => exact absurd (List.getLast?_eq_none_iff.mp hc) hraw_ne
      | some x => exact ⟨x, rfl⟩
    have hallS : ∀ d ∈ (fs.raw.map Prod.fst).insertionSort (fun a b => a ≤ b),
        (List.lookup d fs.raw).isSome := fun d hd =>
      lookup_isSome_of_mem_fst ((List.mem_insertionSort _).mp hd)
    have hrunS := run_ok_of_check (FS.mk fs.raw emptySeries [])
      ⟨(fs.raw.map Prod.fst).insertionSort (fun a b => a ≤ b), false, []⟩
      lastS hokS hlS hallS
    exact ⟨_, hrunS, rfl⟩

/-- Witness for the amended C4 theorem on a concrete store: raw
snapshots 1 and 2 with snapshot 1 processed; the re-run selects
exactly date 2 and both the resumed and the from-scratch run end with
the series of merging snapshots 1 then 2. -/
theorem chronological_resumability_witness :
    neededOf fsResume = (sortedRawDates fsResume).filter (fun d => decide (1 < d))
    ∧ (∃ fs', run fsResume = .ok fs'
        ∧ fs'.series = ingestDates fsResume.raw emptySeries
            (sortedRawDates fsResume))
    ∧ (∃ fsS, run (FS.mk fsResume.raw emptySeries []) = .ok fsS
        ∧ fsS.series = ingestDates fsResume.raw emptySeries
            (sortedRawDates fsResume)) :=
  chronological_resumability fsResume 1 [rowA] rfl rfl rfl
